import Mathlib

/-!
Shallow embedding of the geometric keypoint-decode and temporal-smoothing
core of the Pose_3DEditor repository (src/server), over exact rational
arithmetic, together with theorems settling the frozen claims about it.

Sources embedded:
  * src/server/processing/onnx_vitpose.py : box/center-scale geometry,
    affine transform construction, heatmap argmax decode, sub-pixel
    refinement.
  * src/server/processing/smooth.py : gap interpolation, one-euro filter,
    Savitzky-Golay window selection, smooth_sequence.
  * src/server/main.py : _normalize_point.
  * src/server/processing/exporter.py : _denormalize.

Python floats are modelled as exact rationals; a float that may be NaN
(missing data) is modelled as `Option ℚ` with `none` for NaN. A Python
exception is modelled as `none` in an `Option` result.
-/

namespace Pose

/-- A 2D point with rational coordinates. -/
structure Pt where
  x : ℚ
  y : ℚ
deriving DecidableEq, Repr

/-- Constant `PIXEL_STD = 200.0` from onnx_vitpose.py. -/
def PIXEL_STD : ℚ := 200

/-- Constant `SCALE_FACTOR = 1.25` from onnx_vitpose.py. -/
def SCALE_FACTOR : ℚ := 5 / 4

/-- Function `_get_dir(src_point, rot_rad)` from onnx_vitpose.py: rotate a point by
the rotation angle. The source computes `sin, cos = np.sin(rot_rad),
np.cos(rot_rad)`; here the sine and cosine of the rotation are passed as
rational parameters, so rotation `0` uses `sinr = 0`, `cosr = 1`. -/
def get_dir (p : Pt) (sinr cosr : ℚ) : Pt :=
  ⟨p.x * cosr - p.y * sinr, p.x * sinr + p.y * cosr⟩

/-- Function `_get_3rd_point(a, b)` from onnx_vitpose.py: `b + perpendicular(a - b)`
where the perpendicular of `(dx, dy)` is `(-dy, dx)`. -/
def get_3rd_point (a b : Pt) : Pt :=
  ⟨b.x - (a.y - b.y), b.y + (a.x - b.x)⟩

/-- A 2x3 affine matrix: it maps `(x, y)` to
`(a*x + b*y + c, d*x + e*y + f)`. -/
structure Aff where
  a : ℚ
  b : ℚ
  c : ℚ
  d : ℚ
  e : ℚ
  f : ℚ
deriving DecidableEq, Repr

/-- The external `cv2.getAffineTransform(src, dst)` call: the unique affine map sending the
three source points to the three destination points, solved by Cramer's
rule on the linear part (the external OpenCV call of onnx_vitpose.py,
embedded by its documented semantics). -/
def cvGetAffineTransform (p0 p1 p2 q0 q1 q2 : Pt) : Aff :=
  let ux := p1.x - p0.x
  let uy := p1.y - p0.y
  let vx := p2.x - p0.x
  let vy := p2.y - p0.y
  let det := ux * vy - uy * vx
  let rx := q1.x - q0.x
  let ry := q1.y - q0.y
  let sx := q2.x - q0.x
  let sy := q2.y - q0.y
  let a := (rx * vy - sx * uy) / det
  let b := (sx * ux - rx * vx) / det
  let d := (ry * vy - sy * uy) / det
  let e := (sy * ux - ry * vx) / det
  ⟨a, b, q0.x - a * p0.x - b * p0.y, d, e, q0.y - d * p0.x - e * p0.y⟩

/-- Function `_get_affine_transform(center, scale, rot, output_size, shift, inv)`
from onnx_vitpose.py, with the rotation given by its sine and cosine
(`sinr = 0`, `cosr = 1` is rotation `0`, the only value used at call
sites). `ow, oh` are the output size, `shift` the shift pair. -/
def get_affine_transform (center scale : Pt) (sinr cosr : ℚ) (ow oh : ℚ)
    (shift : Pt) (inv : Bool) : Aff :=
  let stx := scale.x * PIXEL_STD
  let sty := scale.y * PIXEL_STD
  let src_w := stx
  let src_dir := get_dir ⟨0, -(src_w * (1/2))⟩ sinr cosr
  let dst_dir : Pt := ⟨0, -(ow * (1/2))⟩
  let s0 : Pt := ⟨center.x + stx * shift.x, center.y + sty * shift.y⟩
  let s1 : Pt := ⟨center.x + src_dir.x + stx * shift.x,
                  center.y + src_dir.y + sty * shift.y⟩
  let d0 : Pt := ⟨ow * (1/2), oh * (1/2)⟩
  let d1 : Pt := ⟨ow * (1/2) + dst_dir.x, oh * (1/2) + dst_dir.y⟩
  let s2 := get_3rd_point s0 s1
  let d2 := get_3rd_point d0 d1
  if inv then cvGetAffineTransform d0 d1 d2 s0 s1 s2
  else cvGetAffineTransform s0 s1 s2 d0 d1 d2

/-- Function `_affine_transform(point, mat)` from onnx_vitpose.py: augmented 2D
matrix multiply. -/
def affine_transform (p : Pt) (m : Aff) : Pt :=
  ⟨m.a * p.x + m.b * p.y + m.c, m.d * p.x + m.e * p.y + m.f⟩

/-- The forward transform at rotation 0 and zero shift, in closed form. -/
theorem get_affine_transform_fwd (center scale : Pt) (ow oh : ℚ)
    (hs : scale.x ≠ 0) :
    get_affine_transform center scale 0 1 ow oh ⟨0, 0⟩ false =
      ⟨ow / (scale.x * 200), 0,
       ow * (1/2) - ow / (scale.x * 200) * center.x,
       0, ow / (scale.x * 200),
       oh * (1/2) - ow / (scale.x * 200) * center.y⟩ := by
  have h200 : scale.x * 200 ≠ 0 := mul_ne_zero hs (by norm_num)
  simp only [get_affine_transform, get_dir, get_3rd_point,
    cvGetAffineTransform, PIXEL_STD, Bool.false_eq_true, if_false,
    Aff.mk.injEq]
  refine ⟨?_, ?_, ?_, ?_, ?_, ?_⟩ <;>
    · field_simp
      try ring_nf
      try field_simp
      try ring
      try simp

/-- The inverse transform at rotation 0 and zero shift, in closed form. -/
theorem get_affine_transform_inv (center scale : Pt) (ow oh : ℚ)
    (how : ow ≠ 0) :
    get_affine_transform center scale 0 1 ow oh ⟨0, 0⟩ true =
      ⟨scale.x * 200 / ow, 0,
       center.x - scale.x * 200 / ow * (ow * (1/2)),
       0, scale.x * 200 / ow,
       center.y - scale.x * 200 / ow * (oh * (1/2))⟩ := by
  simp only [get_affine_transform, get_dir, get_3rd_point,
    cvGetAffineTransform, PIXEL_STD, if_true, Aff.mk.injEq]
  refine ⟨?_, ?_, ?_, ?_, ?_, ?_⟩ <;>
    · field_simp
      try ring_nf
      try field_simp
      try ring
      try simp

/-- C1: for every valid `(center, scale)` pair (positive scale width) and
every point, with rotation 0: applying the transform built with
`inv = false` and then the transform built with `inv = true` (same center,
scale, output size) returns the original point exactly, in exact rational
arithmetic. -/
theorem affine_roundtrip (center scale p : Pt) (ow oh : ℚ)
    (hs : 0 < scale.x) (how : 0 < ow) :
    affine_transform
      (affine_transform p (get_affine_transform center scale 0 1 ow oh ⟨0, 0⟩ false))
      (get_affine_transform center scale 0 1 ow oh ⟨0, 0⟩ true) = p := by
  have hs2 : scale.x ≠ 0 := ne_of_gt hs
  have how2 : ow ≠ 0 := ne_of_gt how
  rw [get_affine_transform_fwd center scale ow oh hs2,
      get_affine_transform_inv center scale ow oh how2]
  have h200 : scale.x * 200 ≠ 0 := mul_ne_zero hs2 (by norm_num)
  obtain ⟨px, py⟩ := p
  simp only [affine_transform, Pt.mk.injEq]
  constructor <;>
    · field_simp
      try ring

/-- The aspect-correction step of `_box_to_center_scale` in
onnx_vitpose.py: with `aspect = 192/256`, when `w > aspect*h` set
`h = w/aspect`, when `w < aspect*h` set `w = h*aspect`, else keep both. -/
def fixAspect (w h : ℚ) : ℚ × ℚ :=
  if w > 192 / 256 * h then (w, w / (192 / 256))
  else if w < 192 / 256 * h then (h * (192 / 256), h)
  else (w, h)

/-- Function `_box_to_center_scale(box)` from onnx_vitpose.py: degenerate boxes
(width or height below `1e-6`) give the sentinel center `(0,0)`, scale
`(1,1)`; otherwise center is the box center, the box is aspect-corrected,
divided by `PIXEL_STD`, floor-clamped at `1e-3` per component
(`np.maximum`) and multiplied by `SCALE_FACTOR = 1.25`. -/
def box_to_center_scale (x y w h : ℚ) : (ℚ × ℚ) × (ℚ × ℚ) :=
  if w < 1 / 1000000 ∨ h < 1 / 1000000 then ((0, 0), (1, 1))
  else
    let center := (x + w * (1/2), y + h * (1/2))
    let wh := fixAspect w h
    let s : ℚ × ℚ := (wh.1 / PIXEL_STD, wh.2 / PIXEL_STD)
    let s2 : ℚ × ℚ := (max s.1 (1/1000), max s.2 (1/1000))
    (center, (s2.1 * SCALE_FACTOR, s2.2 * SCALE_FACTOR))

/-- C5: every bounding box whose width or height is below the `1e-6`
epsilon (including `w = 0`, `h = 0`) maps to the sentinel: zero center and
unit scale. The embedded function is total, so no error is raised. -/
theorem box_to_center_scale_degenerate (x y w h : ℚ)
    (hdeg : w < 1 / 1000000 ∨ h < 1 / 1000000) :
    box_to_center_scale x y w h = ((0, 0), (1, 1)) := by
  simp only [box_to_center_scale, if_pos hdeg]

/-- Witness for C5 at the zero-area box `w = 0`, `h = 0`. -/
theorem box_to_center_scale_degenerate_witness :
    box_to_center_scale 5 7 0 0 = ((0, 0), (1, 1)) :=
  box_to_center_scale_degenerate 5 7 0 0 (Or.inl (by norm_num))

/-- C9 (amended): the aspect-correction only ever widens a box dimension,
and for every non-degenerate box whose aspect-corrected dimensions are at
least `0.2` (so that the `1e-3` floor clamp leaves both scale components
unchanged), the returned scale has aspect equal to the network input
aspect `192/256`, after the clamp and the `1.25` padding factor. -/
theorem box_to_center_scale_aspect (x y w h : ℚ)
    (hdeg : ¬(w < 1 / 1000000 ∨ h < 1 / 1000000))
    (h1 : 1/5 ≤ (fixAspect w h).1) (h2 : 1/5 ≤ (fixAspect w h).2) :
    w ≤ (fixAspect w h).1 ∧ h ≤ (fixAspect w h).2 ∧
      (box_to_center_scale x y w h).2.1 / (box_to_center_scale x y w h).2.2 =
        192 / 256 := by
  have hfix : (fixAspect w h).1 = 192 / 256 * (fixAspect w h).2 := by
    unfold fixAspect
    split_ifs with hgt hlt
    · field_simp
      ring
    · field_simp
      ring
    · simp only
      linarith
  have hwide : w ≤ (fixAspect w h).1 ∧ h ≤ (fixAspect w h).2 := by
    unfold fixAspect
    split_ifs with hgt hlt
    · refine ⟨le_refl w, ?_⟩
      show h ≤ w / (192 / 256)
      rw [le_div_iff₀ (by norm_num)]
      linarith
    · refine ⟨?_, le_refl h⟩
      show w ≤ h * (192 / 256)
      linarith
    · exact ⟨le_refl w, le_refl h⟩
  refine ⟨hwide.1, hwide.2, ?_⟩
  have hpos2 : 0 < (fixAspect w h).2 := lt_of_lt_of_le (by norm_num) h2
  have hc1 : max ((fixAspect w h).1 / PIXEL_STD) (1/1000) =
      (fixAspect w h).1 / PIXEL_STD := by
    apply max_eq_left
    rw [PIXEL_STD, div_le_div_iff (by norm_num) (by norm_num)] at *
    linarith
  have hc2 : max ((fixAspect w h).2 / PIXEL_STD) (1/1000) =
      (fixAspect w h).2 / PIXEL_STD := by
    apply max_eq_left
    rw [PIXEL_STD, div_le_div_iff (by norm_num) (by norm_num)] at *
    linarith
  simp only [box_to_center_scale, if_neg hdeg, hc1, hc2]
  rw [hfix]
  rw [PIXEL_STD, SCALE_FACTOR]
  field_simp
  ring

/-- Witness for C9 at the box `(0, 0, 200, 200)`. -/
theorem box_to_center_scale_aspect_witness :
    200 ≤ (fixAspect 200 200).1 ∧ 200 ≤ (fixAspect 200 200).2 ∧
      (box_to_center_scale 0 0 200 200).2.1 /
        (box_to_center_scale 0 0 200 200).2.2 = 192 / 256 :=
  box_to_center_scale_aspect 0 0 200 200 (by norm_num)
    (by norm_num [fixAspect]) (by norm_num [fixAspect])

/-- A concrete box on which the claimed aspect invariant of C9 fails as
stated: the box `(0, 0, 0.1, 0.25)` is non-degenerate, but the `1e-3`
floor clamp raises only the first scale component, and the returned scale
is `(1/800, 1/640)` with aspect `4/5`, not `192/256 = 3/4`. -/
theorem box_to_center_scale_aspect_counterexample :
    box_to_center_scale 0 0 (1/10) (1/4) =
      ((1/20, 1/8), (1/800, 1/640)) ∧
      (1 : ℚ)/800 / (1/640) = 4/5 ∧ ((4 : ℚ)/5 ≠ 192 / 256) := by
  refine ⟨?_, by norm_num, by norm_num⟩
  norm_num [box_to_center_scale, fixAspect, PIXEL_STD, SCALE_FACTOR]

/-- Witness for C1 at a concrete center, scale, point and output size. -/
theorem affine_roundtrip_witness :
    affine_transform
      (affine_transform ⟨7, 9⟩
        (get_affine_transform ⟨3, 4⟩ ⟨2, 5⟩ 0 1 192 256 ⟨0, 0⟩ false))
      (get_affine_transform ⟨3, 4⟩ ⟨2, 5⟩ 0 1 192 256 ⟨0, 0⟩ true) = ⟨7, 9⟩ :=
  affine_roundtrip ⟨3, 4⟩ ⟨2, 5⟩ ⟨7, 9⟩ 192 256 (by norm_num) (by norm_num)

/-- Python 3 `round` (banker's rounding, half to even) on an exact
rational: ties go to the even neighbour, otherwise to the nearest
integer. -/
def pyRound (q : ℚ) : ℤ :=
  if q - ⌊q⌋ = 1/2 then (if 2 ∣ ⌊q⌋ then ⌊q⌋ else ⌊q⌋ + 1) else round q

/-- Function `_normalize_point(x, y, width, height)` from main.py:
`nx = (x/width)*2 - 1`, `ny = 1 - (y/height)*2`. -/
def normalize_point (x y width height : ℚ) : ℚ × ℚ :=
  ((x / width) * 2 - 1, 1 - (y / height) * 2)

/-- Function `_denormalize(point, width, height)` from exporter.py:
`x = (nx+1)*0.5*width`, `y = (1-ny)*0.5*height`, each then passed through
`int(round(.))`, so the result is a pair of integers. -/
def denormalize (nx ny width height : ℚ) : ℤ × ℤ :=
  (pyRound ((nx + 1) * (1/2) * width), pyRound ((1 - ny) * (1/2) * height))

/-- Rounding an exact integer with `pyRound` is the identity. -/
theorem pyRound_intCast (n : ℤ) : pyRound (n : ℚ) = n := by
  unfold pyRound
  rw [Int.floor_intCast]
  norm_num

/-- A concrete point on which C3 fails as stated: with `width = height =
1`, the non-integer pixel `x = 1/2` normalizes to `nx = 0`, and
denormalization rounds `(0 + 1) * 0.5 * 1 = 1/2` to the integer `0`, not
back to `1/2`; the round trip loses `1/2`, far beyond floating
tolerance. -/
theorem normalize_denormalize_counterexample :
    denormalize (normalize_point (1/2) 0 1 1).1 (normalize_point (1/2) 0 1 1).2
        1 1 = (0, 0) ∧ ((0 : ℚ) ≠ 1/2) := by
  constructor
  · norm_num [normalize_point, denormalize, pyRound]
  · norm_num

/-- C3 (amended): for integer pixels `(x, y)` inside `[0,width] ×
[0,height]` with positive width and height, normalizing with
`_normalize_point` and denormalizing with `_denormalize` recovers `(x, y)`
exactly; the recovery is exact only on integer pixels because
`_denormalize` rounds to `int`. -/
theorem normalize_denormalize_roundtrip (x y : ℤ) (width height : ℚ)
    (hw : 0 < width) (hh : 0 < height)
    (hx0 : 0 ≤ (x : ℚ)) (hx1 : (x : ℚ) ≤ width)
    (hy0 : 0 ≤ (y : ℚ)) (hy1 : (y : ℚ) ≤ height) :
    denormalize (normalize_point x y width height).1
      (normalize_point x y width height).2 width height = (x, y) := by
  have hw2 : width ≠ 0 := ne_of_gt hw
  have hh2 : height ≠ 0 := ne_of_gt hh
  unfold denormalize normalize_point
  have e1 : (((x : ℚ) / width) * 2 - 1 + 1) * (1/2) * width = (x : ℚ) := by
    field_simp
    ring
  have e2 : (1 - (1 - ((y : ℚ) / height) * 2)) * (1/2) * height = (y : ℚ) := by
    field_simp
    ring
  simp only [e1, e2, pyRound_intCast]

/-- Witness for C3 (amended) at the integer pixel `(3, 2)` in a `4 x 5`
image. -/
theorem normalize_denormalize_roundtrip_witness :
    denormalize (normalize_point ((3 : ℤ) : ℚ) ((2 : ℤ) : ℚ) 4 5).1
      (normalize_point ((3 : ℤ) : ℚ) ((2 : ℤ) : ℚ) 4 5).2 4 5 = (3, 2) :=
  normalize_denormalize_roundtrip 3 2 4 5 (by norm_num) (by norm_num)
    (by norm_num) (by norm_num) (by norm_num) (by norm_num)

/-- Semantics of `np.max` over a flattened heatmap grid: the maximum of the list
(`0` on the empty list, which a heatmap never is). -/
def listMax : List ℚ → ℚ
  | [] => 0
  | [x] => x
  | x :: y :: ys => max x (listMax (y :: ys))

/-- Semantics of `np.argmax` over a flattened heatmap grid: the first index attaining
the maximum, scanning left to right. -/
def argmaxIdx : List ℚ → ℕ
  | [] => 0
  | [_] => 0
  | x :: y :: ys => if listMax (y :: ys) > x then argmaxIdx (y :: ys) + 1 else 0

theorem listMax_cons (x : ℚ) (t : List ℚ) (ht : t ≠ []) :
    listMax (x :: t) = max x (listMax t) := by
  cases t with
  | nil => exact absurd rfl ht
  | cons y ys => rfl

theorem argmaxIdx_cons (x : ℚ) (t : List ℚ) (ht : t ≠ []) :
    argmaxIdx (x :: t) = if listMax t > x then argmaxIdx t + 1 else 0 := by
  cases t with
  | nil => exact absurd rfl ht
  | cons y ys => rfl

theorem getD_le_listMax (g : List ℚ) : ∀ j, j < g.length → g.getD j 0 ≤ listMax g := by
  induction g with
  | nil => intro j hj; simp at hj
  | cons x xs ih =>
    intro j hj
    cases xs with
    | nil =>
      have : j = 0 := by simpa using Nat.lt_one_iff.mp (by simpa using hj)
      subst this
      simp [listMax]
    | cons y ys =>
      rw [listMax_cons x (y :: ys) (by simp)]
      cases j with
      | zero => simp
      | succ j2 =>
        have h2 := ih j2 (by simpa using hj)
        calc (x :: y :: ys).getD (j2 + 1) 0 = (y :: ys).getD j2 0 := rfl
          _ ≤ listMax (y :: ys) := h2
          _ ≤ max x (listMax (y :: ys)) := le_max_right _ _

theorem argmaxIdx_lt_length (g : List ℚ) (hg : g ≠ []) :
    argmaxIdx g < g.length := by
  induction g with
  | nil => exact absurd rfl hg
  | cons x xs ih =>
    cases xs with
    | nil => simp [argmaxIdx]
    | cons y ys =>
      rw [argmaxIdx_cons x (y :: ys) (by simp)]
      split_ifs
      · have := ih (by simp)
        simpa using Nat.succ_lt_succ this
      · simp

theorem getD_argmaxIdx (g : List ℚ) (hg : g ≠ []) :
    g.getD (argmaxIdx g) 0 = listMax g := by
  induction g with
  | nil => exact absurd rfl hg
  | cons x xs ih =>
    cases xs with
    | nil => simp [argmaxIdx, listMax]
    | cons y ys =>
      rw [argmaxIdx_cons x (y :: ys) (by simp),
          listMax_cons x (y :: ys) (by simp)]
      split_ifs with hcmp
      · have h2 := ih (by simp)
        calc (x :: y :: ys).getD (argmaxIdx (y :: ys) + 1) 0
            = (y :: ys).getD (argmaxIdx (y :: ys)) 0 := rfl
          _ = listMax (y :: ys) := h2
          _ = max x (listMax (y :: ys)) := (max_eq_right (le_of_lt hcmp)).symm
      · have : listMax (y :: ys) ≤ x := le_of_not_lt hcmp
        calc (x :: y :: ys).getD 0 0 = x := rfl
          _ = max x (listMax (y :: ys)) := (max_eq_left this).symm

theorem getD_lt_of_lt_argmaxIdx (g : List ℚ) :
    ∀ j, j < argmaxIdx g → g.getD j 0 < listMax g := by
  induction g with
  | nil => intro j hj; simp [argmaxIdx] at hj
  | cons x xs ih =>
    intro j hj
    cases xs with
    | nil => simp [argmaxIdx] at hj
    | cons y ys =>
      rw [argmaxIdx_cons x (y :: ys) (by simp)] at hj
      rw [listMax_cons x (y :: ys) (by simp)]
      split_ifs at hj with hcmp
      · cases j with
        | zero =>
          calc (x :: y :: ys).getD 0 0 = x := rfl
            _ < listMax (y :: ys) := hcmp
            _ ≤ max x (listMax (y :: ys)) := le_max_right _ _
        | succ j2 =>
          have h2 := ih j2 (Nat.lt_of_succ_lt_succ hj)
          calc (x :: y :: ys).getD (j2 + 1) 0 = (y :: ys).getD j2 0 := rfl
            _ < listMax (y :: ys) := h2
            _ ≤ max x (listMax (y :: ys)) := le_max_right _ _
      · simp at hj

/-- A flattened heatmap with a single pixel `1.0` (after `p` zeros, before
`q` zeros) and all others `0.0`. -/
def onehot (p q : ℕ) : List ℚ :=
  List.replicate p 0 ++ 1 :: List.replicate q 0

theorem listMax_replicate_zero (q : ℕ) : listMax (List.replicate q 0) = 0 := by
  induction q with
  | zero => rfl
  | succ n ih =>
    cases n with
    | zero => rfl
    | succ m =>
      rw [List.replicate_succ, listMax_cons 0 _ (by simp), ih]
      simp

theorem onehot_ne_nil (p q : ℕ) : onehot p q ≠ [] := by
  unfold onehot
  cases p <;> simp [List.replicate_succ]

theorem listMax_onehot (p q : ℕ) : listMax (onehot p q) = 1 := by
  induction p with
  | zero =>
    unfold onehot
    cases q with
    | zero => rfl
    | succ m =>
      rw [List.replicate_zero, List.nil_append,
          listMax_cons 1 _ (by simp), listMax_replicate_zero]
      simp
  | succ n ih =>
    have e : onehot (n + 1) q = 0 :: onehot n q := by
      simp [onehot, List.replicate_succ]
    rw [e, listMax_cons 0 _ (onehot_ne_nil n q), ih]
    simp

theorem argmaxIdx_onehot (p q : ℕ) : argmaxIdx (onehot p q) = p := by
  induction p with
  | zero =>
    unfold onehot
    cases q with
    | zero => rfl
    | succ m =>
      rw [List.replicate_zero, List.nil_append,
          argmaxIdx_cons 1 _ (by simp), listMax_replicate_zero]
      norm_num
  | succ n ih =>
    have e : onehot (n + 1) q = 0 :: onehot n q := by
      simp [onehot, List.replicate_succ]
    rw [e, argmaxIdx_cons 0 _ (onehot_ne_nil n q), listMax_onehot, ih]
    norm_num

/-- Function `_max_preds` from onnx_vitpose.py for one `(sample, joint)` grid,
already flattened to a list of `H*W` scores (`reshape(n, k, -1)` in the
source): the predicted coordinate is `(idx % w, idx / w)` for the flat
argmax `idx`, zeroed when the max value is not strictly positive
(`pred_mask = maxvals > 0.0`); the confidence is the raw max value. -/
def max_preds1 (w : ℕ) (g : List ℚ) : (ℚ × ℚ) × ℚ :=
  let idx := argmaxIdx g
  let m := listMax g
  (if 0 < m then (((idx % w : ℕ) : ℚ), ((idx / w : ℕ) : ℚ)) else (0, 0), m)

/-- Function `_max_preds` over the whole `[N, K, H*W]` batch: one decode per
sample and joint. -/
def max_preds (w : ℕ) (hm : List (List (List ℚ))) :
    List (List ((ℚ × ℚ) × ℚ)) :=
  hm.map (fun row => row.map (max_preds1 w))

/-- C2: for every flattened heatmap grid, `_max_preds` returns the raw
maximum as the confidence (which bounds every pixel, is attained at the
returned index, and every earlier index is strictly below it, so the index
is the first flat argmax), zeroes the coordinates when the max is not
strictly positive, returns `(idx % w, idx / w)` when it is, decodes a
one-pixel heatmap to that pixel's flat position with confidence `1`, and
acts elementwise on the `[N, K]` batch. -/
theorem max_preds_spec (w : ℕ) (g : List ℚ) (hg : g ≠ []) :
    ((max_preds1 w g).2 = listMax g) ∧
    (∀ j, j < g.length → g.getD j 0 ≤ (max_preds1 w g).2) ∧
    (g.getD (argmaxIdx g) 0 = (max_preds1 w g).2) ∧
    (∀ j, j < argmaxIdx g → g.getD j 0 < (max_preds1 w g).2) ∧
    ((max_preds1 w g).2 ≤ 0 → (max_preds1 w g).1 = (0, 0)) ∧
    (0 < (max_preds1 w g).2 →
      (max_preds1 w g).1 =
        (((argmaxIdx g % w : ℕ) : ℚ), ((argmaxIdx g / w : ℕ) : ℚ))) ∧
    (∀ p q, g = onehot p q →
      max_preds1 w g = ((((p % w : ℕ) : ℚ), ((p / w : ℕ) : ℚ)), 1)) ∧
    (∀ (hm : List (List (List ℚ))) (n : ℕ) (row : List (List ℚ)),
      hm[n]? = some row →
      (max_preds w hm)[n]? = some (row.map (max_preds1 w))) := by
  refine ⟨rfl, ?_, ?_, ?_, ?_, ?_, ?_, ?_⟩
  · intro j hj
    exact getD_le_listMax g j hj
  · exact getD_argmaxIdx g hg
  · intro j hj
    exact getD_lt_of_lt_argmaxIdx g j hj
  · intro hm2
    have hm3 : listMax g ≤ 0 := hm2
    simp only [max_preds1]
    rw [if_neg (not_lt.mpr hm3)]
  · intro hm2
    have hm3 : 0 < listMax g := hm2
    simp only [max_preds1]
    rw [if_pos hm3]
  · intro p q hpq
    subst hpq
    simp only [max_preds1, argmaxIdx_onehot, listMax_onehot]
    norm_num
  · intro hm n row hrow
    simp only [max_preds, List.getElem?_map, hrow]
    rfl

/-- Witness for C2: the `2 x 3` heatmap `[[0,0,0],[0,1,0]]` flattens to
`onehot 4 1`, and decodes to pixel `(4 % 3, 4 / 3) = (1, 1)` with
confidence `1`. -/
theorem max_preds_spec_witness :
    max_preds1 3 [0, 0, 0, 0, 1, 0] =
      ((((4 % 3 : ℕ) : ℚ), ((4 / 3 : ℕ) : ℚ)), 1) :=
  (max_preds_spec 3 [0, 0, 0, 0, 1, 0] (by simp)).2.2.2.2.2.2.1 4 1
    (by norm_num [onehot, List.replicate])

/-- Python `int(.)` on an exact rational: truncation toward zero. -/
def truncZ (q : ℚ) : ℤ := if 0 ≤ q then ⌊q⌋ else ⌈q⌉

/-- Semantics of `np.sign` on an exact rational. -/
def sgn (q : ℚ) : ℚ := if 0 < q then 1 else if q < 0 then -1 else 0

/-- Function `_refine(coords, heatmaps)` from onnx_vitpose.py for one joint of one
sample. The heatmap grid is a function of (row, column); the guard keeps
every accessed index inside the `hh x ww` grid. `px, py` are the
truncated coordinates (`int(...)` in the source); strictly interior
joints are nudged by `sign(difference) * 0.25` per axis, all others kept
as they are. -/
def refine1 (hh ww : ℕ) (H : ℤ → ℤ → ℚ) (c : ℚ × ℚ) : ℚ × ℚ :=
  let px := truncZ c.1
  let py := truncZ c.2
  if 1 < px ∧ px < (ww : ℤ) - 1 ∧ 1 < py ∧ py < (hh : ℤ) - 1 then
    (c.1 + sgn (H py (px + 1) - H py (px - 1)) * (1/4),
     c.2 + sgn (H (py + 1) px - H (py - 1) px) * (1/4))
  else c

/-- Function `_refine` over the `[N, K]` batch: the source's double loop updates
each `(sample, joint)` coordinate independently. -/
def refine (hh ww : ℕ) (heatmaps : List (List (ℤ → ℤ → ℚ)))
    (coords : List (List (ℚ × ℚ))) : List (List (ℚ × ℚ)) :=
  List.zipWith (fun cs Hs => List.zipWith (fun c H => refine1 hh ww H c) cs Hs)
    coords heatmaps

theorem zipWith_getElem? {α β γ : Type} (f : α → β → γ) :
    ∀ (l1 : List α) (l2 : List β) (i : ℕ) (a : α) (b : β),
      l1[i]? = some a → l2[i]? = some b →
      (List.zipWith f l1 l2)[i]? = some (f a b) := by
  intro l1
  induction l1 with
  | nil => intro l2 i a b h1 h2; simp at h1
  | cons x xs ih =>
    intro l2 i a b h1 h2
    cases l2 with
    | nil => simp at h2
    | cons y ys =>
      cases i with
      | zero =>
        simp at h1 h2
        simp [List.zipWith, h1, h2]
      | succ i2 =>
        simp at h1 h2
        simpa [List.zipWith] using ih ys i2 a b h1 h2

/-- C4: a joint whose truncated position `(px, py)` satisfies
`1 < px < W-1` and `1 < py < H-1` is moved by exactly
`0.25 * sign(H[py, px+1] - H[py, px-1])` on x and
`0.25 * sign(H[py+1, px] - H[py-1, px])` on y; every other joint is left
unchanged; and the batch version applies this per sample and joint. -/
theorem refine_spec (hh ww : ℕ) (H : ℤ → ℤ → ℚ) (c : ℚ × ℚ) :
    ((1 < truncZ c.1 ∧ truncZ c.1 < (ww : ℤ) - 1 ∧
      1 < truncZ c.2 ∧ truncZ c.2 < (hh : ℤ) - 1) →
      refine1 hh ww H c =
        (c.1 + sgn (H (truncZ c.2) (truncZ c.1 + 1) -
                    H (truncZ c.2) (truncZ c.1 - 1)) * (1/4),
         c.2 + sgn (H (truncZ c.2 + 1) (truncZ c.1) -
                    H (truncZ c.2 - 1) (truncZ c.1)) * (1/4))) ∧
    (¬(1 < truncZ c.1 ∧ truncZ c.1 < (ww : ℤ) - 1 ∧
       1 < truncZ c.2 ∧ truncZ c.2 < (hh : ℤ) - 1) →
      refine1 hh ww H c = c) ∧
    (∀ (coords : List (List (ℚ × ℚ))) (heatmaps : List (List (ℤ → ℤ → ℚ)))
       (i j : ℕ) (cs : List (ℚ × ℚ)) (Hs : List (ℤ → ℤ → ℚ))
       (cj : ℚ × ℚ) (Hj : ℤ → ℤ → ℚ),
      coords[i]? = some cs → heatmaps[i]? = some Hs →
      cs[j]? = some cj → Hs[j]? = some Hj →
      ((refine hh ww heatmaps coords)[i]?.bind (fun r => r[j]?)) =
        some (refine1 hh ww Hj cj)) := by
  refine ⟨?_, ?_, ?_⟩
  · intro hcond
    simp only [refine1]
    rw [if_pos hcond]
  · intro hcond
    simp only [refine1]
    rw [if_neg hcond]
  · intro coords heatmaps i j cs Hs cj Hj hci hHi hcj hHj
    have h1 := zipWith_getElem?
      (fun cs Hs => List.zipWith (fun c H => refine1 hh ww H c) cs Hs)
      coords heatmaps i cs Hs hci hHi
    rw [refine, h1]
    simp only [Option.bind_some]
    exact zipWith_getElem? (fun c H => refine1 hh ww H c) cs Hs j cj Hj hcj hHj

/-- A Python float that may be NaN: `none` models a non-finite value. -/
abbrev PF := Option ℚ

/-- One frame of a track as smooth.py receives it: an insertion-ordered
dict from joint id to an `(x, y, confidence)` triple whose entries may be
NaN. -/
abbrev Frame := List (ℕ × (PF × PF × PF))

/-- Cell `data[fi, ji]` of smooth.py: the frame's entry for a joint id, or an
all-NaN cell when the id is absent from the frame dict. -/
def lookupCell (fr : Frame) (jid : ℕ) : PF × PF × PF :=
  (fr.lookup jid).getD (none, none, none)

/-- Semantics of `np.interp(t, xp, fp)` for strictly increasing sample positions
(given as `(position, value)` pairs): piecewise-linear interpolation with
constant extrapolation at both ends, the semantics of the numpy call used
by smooth.py. -/
def interpAt : List (ℚ × ℚ) → ℚ → ℚ
  | [], _ => 0
  | [(_, y0)], _ => y0
  | (x0, y0) :: (x1, y1) :: rest, t =>
    if t ≤ x0 then y0
    else if t ≤ x1 then y0 + (y1 - y0) * (t - x0) / (x1 - x0)
    else interpAt ((x1, y1) :: rest) t

/-- Function `_interp_nans(values)` from smooth.py: a fully finite column is
returned as is; a column with no finite sample becomes all zeros;
otherwise every non-finite entry is replaced by `np.interp` over the
finite entries (by index), finite entries kept unchanged. -/
def interp_nans (col : List PF) : List ℚ :=
  if col.all (fun v => v.isSome) then col.map (fun v => v.getD 0)
  else
    let valid := col.enum.filterMap
      (fun p => p.2.map (fun q => ((p.1 : ℚ), q)))
    if valid = [] then List.replicate col.length 0
    else col.enum.map (fun p =>
      match p.2 with
      | some q => q
      | none => interpAt valid (p.1 : ℚ))

/-- The IEEE-754 double value of Python's `math.pi`, as an exact
rational: `884279719003555 / 2^48`. -/
def mathPi : ℚ := 884279719003555 / 281474976710656

/-- Function `_alpha(cutoff, dt)` from smooth.py:
`1 / (1 + (1 / (2 pi cutoff)) / dt)`. -/
def alphaOf (cutoff dt : ℚ) : ℚ := 1 / (1 + (1 / (2 * mathPi * cutoff)) / dt)

/-- Function `_lowpass(prev, value, alpha)` from smooth.py. -/
def lowpass (prev value a : ℚ) : ℚ := a * value + (1 - a) * prev

/-- The loop body of `_one_euro` from smooth.py, carrying
`(prev, dx_prev)` through the remaining samples. -/
def oneEuroGo (dt min_cutoff beta d_cutoff : ℚ) :
    List ℚ → ℚ → ℚ → List ℚ
  | [], _, _ => []
  | v :: vs, prev, dx_prev =>
    let dx := (v - prev) / dt
    let alpha_d := alphaOf d_cutoff dt
    let dx_hat := lowpass dx_prev dx alpha_d
    let cutoff := min_cutoff + beta * |dx_hat|
    let alpha_val := alphaOf cutoff dt
    let prev2 := lowpass prev v alpha_val
    prev2 :: oneEuroGo dt min_cutoff beta d_cutoff vs prev2 dx_hat

/-- Function `_one_euro(series, fps, strength)` from smooth.py. On an empty series
the source raises `IndexError` at `series[0]`, modelled as `none`;
otherwise the first sample is kept and the filter recurrence is applied to
the rest. `min_cutoff` and `beta` come from `np.interp` of the strength
over `[2.5, 0.4]` and `[0, 1]`, and `dt = 1 / max(1e-3, fps)`. -/
def one_euro (series : List ℚ) (fps strength : ℚ) : Option (List ℚ) :=
  match series with
  | [] => none
  | s0 :: rest =>
    let dt := 1 / max (1/1000) fps
    let min_cutoff := interpAt [(0, 5/2), (1, 2/5)] strength
    let beta := interpAt [(0, 0), (1, 1)] strength
    some (s0 :: oneEuroGo dt min_cutoff beta 1 rest s0 0)

/-- The window-length selection of `_savgol` from smooth.py:
`int(3 + strength * 18)`, bumped to odd, clamped when it reaches the
series length `n` (to `n - 1` when `n` is even, else to `n`), and floored
at `3`. -/
def savgol_window (n : ℕ) (strength : ℚ) : ℤ :=
  let w0 := truncZ (3 + strength * 18)
  let w1 := if w0 % 2 = 0 then w0 + 1 else w0
  let w2 := if w1 ≥ (n : ℤ) then
      (if (n : ℤ) % 2 = 0 then (n : ℤ) - 1 else (n : ℤ)) else w1
  if w2 < 3 then 3 else w2

/-- Function `_savgol(series, strength)` from smooth.py: series with fewer than 3
samples are returned unchanged, otherwise the external
`scipy.signal.savgol_filter` (polynomial order 2) is applied with the
selected window; the scipy call is the parameter `filt`. -/
def savgol (filt : List ℚ → ℤ → List ℚ) (series : List ℚ) (strength : ℚ) :
    List ℚ :=
  if series.length < 3 then series
  else filt series (savgol_window series.length strength)

/-- The per-joint per-axis smoothing step of `smooth_sequence`: gap-fill
with `_interp_nans`, then `_savgol` when the mode string equals
`"savgol"`, else `_one_euro` (the source's `else` branch). -/
def smooth_joint_axis (filt : List ℚ → ℤ → List ℚ) (mode : String)
    (fps strength : ℚ) (col : List PF) : Option (List ℚ) :=
  let filled := interp_nans col
  if mode = "savgol" then some (savgol filt filled strength)
  else one_euro filled fps strength

/-- The smoothed columns of one joint: the joint id, the smoothed x and y
series and the raw confidence column. -/
structure JointCols where
  jid : ℕ
  sx : List ℚ
  sy : List ℚ
  cs : List PF

/-- Sequence a list of fallible computations, failing on the first
failure: the model of the source's loop in which an exception aborts the
whole call. -/
def mapOpt {α β : Type} (f : α → Option β) : List α → Option (List β)
  | [] => some []
  | a :: as =>
    match f a, mapOpt f as with
    | some b, some bs => some (b :: bs)
    | _, _ => none

/-- The per-joint body of the smoothing loop of `smooth_sequence`:
extract the joint's column of cells across the frames, smooth the x and y
axes, keep the confidence column raw. -/
def jointPipeline (filt : List ℚ → ℤ → List ℚ) (mode : String)
    (fps strength : ℚ) (sequence : List Frame) (jid : ℕ) :
    Option JointCols :=
  let cells := sequence.map (fun fr => lookupCell fr jid)
  match smooth_joint_axis filt mode fps strength (cells.map (fun c => c.1)),
        smooth_joint_axis filt mode fps strength (cells.map (fun c => c.2.1)) with
  | some sx, some sy =>
    some (JointCols.mk jid sx sy (cells.map (fun c => c.2.2)))
  | _, _ => none

/-- The output loop of `smooth_sequence`: one dict per frame, mapping
each joint id (in the order of the joint list) to its smoothed
`(x, y)` and its raw confidence defaulted to `0` when non-finite. -/
def emitFrames (n : ℕ) (cols : List JointCols) :
    List (List (ℕ × (ℚ × ℚ × ℚ))) :=
  (List.range n).map (fun fi =>
    cols.map (fun jc =>
      (jc.jid, (jc.sx.getD fi 0, jc.sy.getD fi 0,
                (jc.cs.getD fi none).getD 0))))

/-- Function `smooth_sequence(sequence, joint_ids, fps, mode, strength)` from
smooth.py: build the `[frames, joints, 3]` array (NaN for absent
entries), gap-fill and smooth the x and y column of every joint, keep the
confidence column raw, then emit one dict per frame mapping each joint id
to `(x, y, confidence-or-0)`. The source's `isfinite` check on the
smoothed x and y always passes in exact arithmetic, because gap-filled
columns are fully finite; a non-finite raw confidence becomes `0.0`. -/
def smooth_sequence (filt : List ℚ → ℤ → List ℚ) (sequence : List Frame)
    (joint_ids : List ℕ) (fps : ℚ) (mode : String) (strength : ℚ) :
    Option (List (List (ℕ × (ℚ × ℚ × ℚ)))) :=
  match mapOpt (jointPipeline filt mode fps strength sequence) joint_ids with
  | none => none
  | some cols => some (emitFrames sequence.length cols)

/-- A concrete strength on which C6 fails as stated: at `strength = 1`
the raw window is `21`, and the length clamp for a 5-sample series (odd
length) sets it to `5`, which is not strictly less than `5`. -/
theorem savgol_window_counterexample :
    savgol_window 5 1 = 5 ∧ ¬((5 : ℤ) < 5) := by
  constructor
  · norm_num [savgol_window, truncZ]
  · norm_num

/-- C6 (amended): for a 5-sample series and any strength in `[0, 1]`, the
chosen Savitzky-Golay window length is odd, at least `3` and at most `5`
(it never exceeds the series length, and reaches `5` for large
strengths); and a series with fewer than 3 samples is returned
unchanged. -/
theorem savgol_window_bounds (strength : ℚ)
    (h0 : 0 ≤ strength) (h1 : strength ≤ 1) :
    savgol_window 5 strength % 2 = 1 ∧ 3 ≤ savgol_window 5 strength ∧
      savgol_window 5 strength ≤ 5 ∧
      ∀ (filt : List ℚ → ℤ → List ℚ) (series : List ℚ) (s2 : ℚ),
        series.length < 3 → savgol filt series s2 = series := by
  have hnn : (0 : ℚ) ≤ 3 + strength * 18 := by
    have := mul_nonneg h0 (show (0 : ℚ) ≤ 18 by norm_num)
    linarith
  have htz : truncZ (3 + strength * 18) = ⌊(3 : ℚ) + strength * 18⌋ := by
    unfold truncZ
    rw [if_pos hnn]
  have hk3 : 3 ≤ ⌊(3 : ℚ) + strength * 18⌋ := by
    rw [Int.le_floor]
    push_cast
    linarith [mul_nonneg h0 (show (0 : ℚ) ≤ 18 by norm_num)]
  refine ?_
  have hwin : savgol_window 5 strength % 2 = 1 ∧
      3 ≤ savgol_window 5 strength ∧ savgol_window 5 strength ≤ 5 := by
    simp only [savgol_window, htz]
    set k := ⌊(3 : ℚ) + strength * 18⌋ with hk
    split_ifs <;> omega
  refine ⟨hwin.1, hwin.2.1, hwin.2.2, ?_⟩
  intro filt series s2 hlen
  simp only [savgol, if_pos hlen]

/-- Witness for C6 at `strength = 1/2` (window `5`) and the 2-sample
series `[1, 2]` (returned unchanged). -/
theorem savgol_window_bounds_witness :
    savgol_window 5 (1/2) % 2 = 1 ∧ 3 ≤ savgol_window 5 (1/2) ∧
      savgol_window 5 (1/2) ≤ 5 ∧
      ∀ (filt : List ℚ → ℤ → List ℚ) (series : List ℚ) (s2 : ℚ),
        series.length < 3 → savgol filt series s2 = series :=
  savgol_window_bounds (1/2) (by norm_num) (by norm_num)

/-- A concrete run on which C7 fails as stated: with the unknown mode
string `"invalidMode"`, `smooth_sequence` does not fail; it silently
smooths with the one-euro filter and returns a normal result. -/
theorem smooth_sequence_unknown_mode_counterexample :
    smooth_sequence (fun s _ => s)
        ([[(0, (some 1, some 2, some (9/10)))]] : List Frame) [0] 30
        "invalidMode" (1/2) =
      some [[(0, (1, 2, 9/10))]] := by
  rfl

theorem jointPipeline_mode (filt : List ℚ → ℤ → List ℚ)
    (fps strength : ℚ) (sequence : List Frame) (mode : String)
    (hmode : mode ≠ "savgol") :
    jointPipeline filt mode fps strength sequence =
      jointPipeline filt "oneEuro" fps strength sequence := by
  funext jid
  have h2 : ("oneEuro" : String) ≠ "savgol" := by decide
  simp only [jointPipeline, smooth_joint_axis, if_neg hmode, if_neg h2]

/-- C7 (amended): `smooth_sequence` does not fail fast on an unknown mode
string; every mode other than `"savgol"` (including any unknown mode) is
treated exactly as the one-euro mode, because the source dispatches with
`if mode == "savgol" ... else one-euro`. -/
theorem smooth_sequence_mode_fallback (filt : List ℚ → ℤ → List ℚ)
    (sequence : List Frame) (joint_ids : List ℕ) (fps strength : ℚ)
    (mode : String) (hmode : mode ≠ "savgol") :
    smooth_sequence filt sequence joint_ids fps mode strength =
      smooth_sequence filt sequence joint_ids fps "oneEuro" strength := by
  unfold smooth_sequence
  rw [jointPipeline_mode filt fps strength sequence mode hmode]

/-- Witness for C7 at the concrete unknown mode `"xyz"`. -/
theorem smooth_sequence_mode_fallback_witness :
    smooth_sequence (fun s _ => s) ([] : List Frame) [] 1 "xyz" 0 =
      smooth_sequence (fun s _ => s) ([] : List Frame) [] 1 "oneEuro" 0 :=
  smooth_sequence_mode_fallback (fun s _ => s) [] [] 1 0 "xyz" (by decide)

theorem interp_nans_length (col : List PF) :
    (interp_nans col).length = col.length := by
  unfold interp_nans
  by_cases h1 : col.all (fun v => v.isSome)
  · simp [h1]
  · rw [if_neg h1]
    by_cases h2 : (col.enum.filterMap
        fun p => p.2.map fun q => ((p.1 : ℚ), q)) = []
    · rw [if_pos h2]
      simp
    · rw [if_neg h2]
      simp [List.enum_length]

theorem interp_nans_getElem?_some (col : List PF) (i : ℕ) (q : ℚ)
    (h : col[i]? = some (some q)) : (interp_nans col)[i]? = some q := by
  unfold interp_nans
  by_cases hall : col.all (fun v => v.isSome)
  · rw [if_pos hall, List.getElem?_map, h]
    rfl
  · rw [if_neg hall]
    by_cases hval : (col.enum.filterMap
        fun p => p.2.map fun q => ((p.1 : ℚ), q)) = []
    · exfalso
      have hmem : ((i, (some q : PF)) : ℕ × PF) ∈ col.enum := by
        rw [List.mk_mem_enum_iff_getElem?]
        exact h
      have hnone := List.filterMap_eq_nil.mp hval _ hmem
      simp at hnone
    · rw [if_neg hval, List.getElem?_map, List.getElem?_enum, h]
      rfl

theorem interp_nans_all_none (col : List PF) (h : ∀ v ∈ col, v = none) :
    interp_nans col = List.replicate col.length 0 := by
  cases col with
  | nil => rfl
  | cons c cs =>
    have hc : c = none := h c (by simp)
    unfold interp_nans
    rw [if_neg, if_pos]
    · rw [List.filterMap_eq_nil]
      intro p hp
      have hp2 : p.2 ∈ (c :: cs) := by
        have := List.mem_enum_iff_getElem?.mp hp
        exact List.getElem?_mem this
      rw [h p.2 hp2]
      rfl
    · subst hc
      simp

theorem mapOpt_map_eq {α β : Type} (f : α → Option β) (g : β → α)
    (hfg : ∀ a b, f a = some b → g b = a) :
    ∀ (l : List α) (l2 : List β), mapOpt f l = some l2 → l2.map g = l := by
  intro l
  induction l with
  | nil =>
    intro l2 h
    simp only [mapOpt, Option.some.injEq] at h
    subst h
    rfl
  | cons a as ih =>
    intro l2 h
    unfold mapOpt at h
    cases hfa : f a with
    | none => rw [hfa] at h; simp at h
    | some b =>
      rw [hfa] at h
      cases hrest : mapOpt f as with
      | none => rw [hrest] at h; simp at h
      | some bs =>
        rw [hrest] at h
        simp only [Option.some.injEq] at h
        subst h
        rw [List.map_cons, hfg a b hfa, ih bs hrest]

theorem mapOpt_isSome {α β : Type} (f : α → Option β)
    (hf : ∀ a, ∃ b, f a = some b) :
    ∀ l : List α, ∃ l2, mapOpt f l = some l2 := by
  intro l
  induction l with
  | nil => exact ⟨[], rfl⟩
  | cons a as ih =>
    obtain ⟨b, hb⟩ := hf a
    obtain ⟨bs, hbs⟩ := ih
    exact ⟨b :: bs, by simp [mapOpt, hb, hbs]⟩

theorem one_euro_isSome (series : List ℚ) (fps strength : ℚ)
    (h : series ≠ []) : ∃ l, one_euro series fps strength = some l := by
  cases series with
  | nil => exact absurd rfl h
  | cons s rest => exact ⟨_, rfl⟩

theorem smooth_joint_axis_isSome (filt : List ℚ → ℤ → List ℚ)
    (mode : String) (fps strength : ℚ) (col : List PF) (h : col ≠ []) :
    ∃ l, smooth_joint_axis filt mode fps strength col = some l := by
  unfold smooth_joint_axis
  split_ifs with hm
  · exact ⟨_, rfl⟩
  · apply one_euro_isSome
    intro hemp
    apply h
    have hl := interp_nans_length col
    rw [hemp] at hl
    exact List.length_eq_zero.mp hl.symm

theorem jointPipeline_jid (filt : List ℚ → ℤ → List ℚ) (mode : String)
    (fps strength : ℚ) (sequence : List Frame) (jid : ℕ) (jc : JointCols)
    (h : jointPipeline filt mode fps strength sequence jid = some jc) :
    jc.jid = jid := by
  simp only [jointPipeline] at h
  rcases hx : smooth_joint_axis filt mode fps strength
      ((sequence.map (fun fr => lookupCell fr jid)).map (fun c => c.1)) with _ | sx
  · rw [hx] at h; simp at h
  · rcases hy : smooth_joint_axis filt mode fps strength
        ((sequence.map (fun fr => lookupCell fr jid)).map (fun c => c.2.1)) with _ | sy
    · rw [hx, hy] at h; simp at h
    · rw [hx, hy] at h
      simp only [Option.some.injEq] at h
      subst h
      rfl

theorem jointPipeline_isSome (filt : List ℚ → ℤ → List ℚ) (mode : String)
    (fps strength : ℚ) (sequence : List Frame) (jid : ℕ)
    (h : sequence ≠ []) :
    ∃ jc, jointPipeline filt mode fps strength sequence jid = some jc := by
  obtain ⟨sx, hsx⟩ := smooth_joint_axis_isSome filt mode fps strength
    ((sequence.map (fun fr => lookupCell fr jid)).map (fun c => c.1))
    (by simpa using h)
  obtain ⟨sy, hsy⟩ := smooth_joint_axis_isSome filt mode fps strength
    ((sequence.map (fun fr => lookupCell fr jid)).map (fun c => c.2.1))
    (by simpa using h)
  refine ⟨JointCols.mk jid sx sy
    ((sequence.map (fun fr => lookupCell fr jid)).map (fun c => c.2.2)), ?_⟩
  simp only [jointPipeline]
  rw [hsx, hsy]

/-- A concrete run on which C8 fails as stated: a one-frame track whose
only frame has no entry for joint `0`, so literally zero frames have a
finite sample, yet the output still contains joint `0` (zero-filled by
`_interp_nans`) instead of omitting it. -/
theorem smooth_sequence_omission_counterexample :
    smooth_sequence (fun s _ => s) ([[]] : List Frame) [0] 30 "oneEuro"
        (1/2) = some [[(0, (0, 0, 0))]] := by
  rfl

/-- C8 (amended): whenever `smooth_sequence` returns, every output frame
lists exactly the supplied joint ids — a joint is never omitted, even
when zero frames had a finite sample (its column is then zero-filled);
gap-filling preserves every finite sample in place, and a column with no
finite sample at all becomes all zeros rather than being dropped. -/
theorem smooth_sequence_never_omits (filt : List ℚ → ℤ → List ℚ)
    (sequence : List Frame) (joint_ids : List ℕ) (fps strength : ℚ)
    (mode : String) (out : List (List (ℕ × (ℚ × ℚ × ℚ))))
    (h : smooth_sequence filt sequence joint_ids fps mode strength = some out) :
    (∀ fr ∈ out, fr.map Prod.fst = joint_ids) ∧
    (∀ (col : List PF) (i : ℕ) (q : ℚ), col[i]? = some (some q) →
      (interp_nans col)[i]? = some q) ∧
    (∀ col : List PF, (∀ v ∈ col, v = none) →
      interp_nans col = List.replicate col.length 0) := by
  refine ⟨?_, interp_nans_getElem?_some, interp_nans_all_none⟩
  intro fr hfr
  unfold smooth_sequence at h
  rcases e : mapOpt (jointPipeline filt mode fps strength sequence) joint_ids
      with _ | cols
  · rw [e] at h
    simp at h
  · rw [e] at h
    simp only [Option.some.injEq] at h
    subst h
    unfold emitFrames at hfr
    obtain ⟨fi, hfi, rfl⟩ := List.mem_map.mp hfr
    rw [List.map_map]
    exact mapOpt_map_eq _ _
      (fun a b hb => jointPipeline_jid filt mode fps strength sequence a b hb)
      joint_ids cols e

/-- Witness for C8 at the one-frame track with joint `0` absent: the
output frame's key list is exactly `[0]`. -/
theorem smooth_sequence_never_omits_witness :
    List.map Prod.fst [(0, ((0 : ℚ), (0 : ℚ), (0 : ℚ)))] = [0] :=
  (smooth_sequence_never_omits (fun s _ => s) ([[]] : List Frame) [0] 30
    (1/2) "oneEuro" [[(0, (0, 0, 0))]] rfl).1 [(0, (0, 0, 0))] (by simp)

/-- A concrete run on which C10 fails as stated: on an empty input
sequence with a non-empty joint list and the one-euro mode, the source
raises `IndexError` at `series[0]` (modelled as `none`) instead of
returning an empty list of frames. -/
theorem smooth_sequence_empty_counterexample :
    smooth_sequence (fun s _ => s) ([] : List Frame) [0] 30 "oneEuro"
        (1/2) = none := by
  rfl

/-- C10 (amended): for every non-empty input sequence, `smooth_sequence`
returns (it does not fail), produces exactly one output frame per input
frame in order, and every joint id appearing in an output frame is drawn
from the supplied joint-id list. -/
theorem smooth_sequence_shape (filt : List ℚ → ℤ → List ℚ)
    (sequence : List Frame) (joint_ids : List ℕ) (fps strength : ℚ)
    (mode : String) (hseq : sequence ≠ []) :
    ∃ out, smooth_sequence filt sequence joint_ids fps mode strength =
        some out ∧
      out.length = sequence.length ∧
      ∀ fr ∈ out, ∀ p ∈ fr, p.1 ∈ joint_ids := by
  obtain ⟨cols, hcols⟩ := mapOpt_isSome
    (jointPipeline filt mode fps strength sequence)
    (fun jid => jointPipeline_isSome filt mode fps strength sequence jid hseq)
    joint_ids
  refine ⟨emitFrames sequence.length cols, ?_, ?_, ?_⟩
  · unfold smooth_sequence
    rw [hcols]
  · unfold emitFrames
    simp
  · intro fr hfr p hp
    unfold emitFrames at hfr
    obtain ⟨fi, hfi, rfl⟩ := List.mem_map.mp hfr
    obtain ⟨jc, hjc, rfl⟩ := List.mem_map.mp hp
    have hmap := mapOpt_map_eq _ _
      (fun a b hb => jointPipeline_jid filt mode fps strength sequence a b hb)
      joint_ids cols hcols
    rw [← hmap]
    exact List.mem_map.mpr ⟨jc, hjc, rfl⟩

/-- Witness for C10 at a concrete one-frame sequence. -/
theorem smooth_sequence_shape_witness :
    ∃ out, smooth_sequence (fun s _ => s) ([[]] : List Frame) [0] 30
        "oneEuro" (1/2) = some out ∧
      out.length = ([[]] : List Frame).length ∧
      ∀ fr ∈ out, ∀ p ∈ fr, p.1 ∈ [0] :=
  smooth_sequence_shape (fun s _ => s) ([[]] : List Frame) [0] 30 (1/2)
    "oneEuro" (by simp)

end Pose
